import Mathlib

/-!
Verification of the FinSafeBot risk-heuristic core (src/main.py).

The Python source is shallowly embedded: strings are `String`/`List Char`
over Unicode code points, the regular expressions of `_normalize`,
`looks_suspicious` and `ai_explain_safety` are translated into executable
character-list scanners, and the module-level mutable AI state
(`_ai_cooldown_until`, `_ai_backoff_sec`) becomes explicit state passing
over `AiState` with time modelled as `ℚ`.

Notes on the embedding of `_normalize` (main.py lines 144-150):
the source lowercases, replaces every run matching `[^\w\s]+` by a single
space, collapses `\s+` to one space, strips, and finally translates the
twelve Latin letters a,e,o,p,c,x,y,k,m,h,b,t to their Cyrillic look-alikes.
Replacing each non-word run by a space and then collapsing whitespace and
stripping is the same as splitting the text into maximal runs of word
characters and joining them with single spaces, which is how it is written
here (`wordRuns` / `sepJoin`).  Pythons `str.lower` and the `\w` / `\s`
classes are modelled on the character ranges this program works over
(ASCII and the base Cyrillic block).
-/

namespace FinSafeBot

/-- Code-point lowercasing as Python `str.lower` acts on the ASCII and base
Cyrillic ranges: `A`-`Z`, `А`-`Я` and `Ѐ`-`Џ` map down, everything else is
fixed. -/
def lowerNat (n : Nat) : Nat :=
  if 65 ≤ n ∧ n ≤ 90 then n + 32
  else if 1024 ≤ n ∧ n ≤ 1039 then n + 80
  else if 1040 ≤ n ∧ n ≤ 1071 then n + 32
  else n

/-- Python `str.lower`, character-wise. -/
def pyLower (c : Char) : Char := Char.ofNat (lowerNat c.toNat)

/-- Python regex class `\w` over the ranges this program works with:
ASCII digits, ASCII letters, underscore, and the Cyrillic block
U+0400-U+04FF (all of which are letters). -/
def wordNat (n : Nat) : Bool :=
  (48 ≤ n && n ≤ 57) || (65 ≤ n && n ≤ 90) || (97 ≤ n && n ≤ 122)
    || n == 95 || (1024 ≤ n && n ≤ 1279)

def isWordChar (c : Char) : Bool := wordNat c.toNat

/-- Python regex class `\s` (Unicode whitespace). -/
def spaceNat (n : Nat) : Bool :=
  (9 ≤ n && n ≤ 13) || (28 ≤ n && n ≤ 31) || n == 32 || n == 133 || n == 160
    || n == 5760 || (8192 ≤ n && n ≤ 8202) || n == 8232 || n == 8233
    || n == 8239 || n == 8287 || n == 12288

def isPySpace (c : Char) : Bool := spaceNat c.toNat

/-- The `map_l2c` table of `_normalize` (main.py line 149): the twelve Latin
lowercase letters a,e,o,p,c,x,y,k,m,h,b,t mapped to their Cyrillic
look-alikes а,е,о,р,с,х,у,к,м,н,в,т. -/
def l2cNat (n : Nat) : Nat :=
  if n = 97 then 1072
  else if n = 101 then 1077
  else if n = 111 then 1086
  else if n = 112 then 1088
  else if n = 99 then 1089
  else if n = 120 then 1093
  else if n = 121 then 1091
  else if n = 107 then 1082
  else if n = 109 then 1084
  else if n = 104 then 1085
  else if n = 98 then 1074
  else if n = 116 then 1090
  else n

def l2c (c : Char) : Char := Char.ofNat (l2cNat c.toNat)

/-- Splits a character list into its maximal runs of word characters,
dropping the separators; `acc` holds the current run reversed. -/
def wordRunsAux : List Char → List Char → List (List Char)
  | acc, [] => if acc.isEmpty then [] else [acc.reverse]
  | acc, c :: cs =>
    if isWordChar c then wordRunsAux (c :: acc) cs
    else if acc.isEmpty then wordRunsAux [] cs
    else acc.reverse :: wordRunsAux [] cs

def wordRuns (cs : List Char) : List (List Char) := wordRunsAux [] cs

/-- Joins runs with single spaces (what the replace-collapse-strip pipeline
of `_normalize` leaves). -/
def sepJoin : List (List Char) → List Char
  | [] => []
  | [r] => r
  | r :: rs => r ++ ' ' :: sepJoin rs

/-- `_normalize` of main.py lines 144-150, character-list form: lowercase,
keep the maximal word-character runs joined by single spaces, then fold
Latin look-alikes into Cyrillic. -/
def pyNormalizeList (cs : List Char) : List Char :=
  (sepJoin (wordRuns (cs.map pyLower))).map l2c

def _normalize (s : String) : String := String.mk (pyNormalizeList s.data)

/-! ### Word-boundary search: `re.search(rf"\b{re.escape(kw)}\b", t)`

`\b` holds between two positions whose word-ness differs; the virtual
characters before the start and after the end of the text count as
non-word.  The empty pattern is never searched for by the source
(`looks_suspicious` filters falsy keywords, and the action/reward lists
are concrete non-empty words), so `wbAt` treats it as no match. -/

/-- Python substring test `pat in t`, as a Boolean scan. -/
def isInfixB (pat : List Char) : List Char → Bool
  | [] => pat.isEmpty
  | c :: rest => pat.isPrefixOf (c :: rest) || isInfixB pat rest

def wbAt (kw : List Char) (prevW : Bool) (t : List Char) : Bool :=
  match kw.head?, kw.getLast? with
  | some f, some l =>
    kw.isPrefixOf t &&
    (prevW != isWordChar f) &&
    (match t.drop kw.length with
     | [] => isWordChar l
     | c :: _ => isWordChar l != isWordChar c)
  | _, _ => false

def wbAux (kw : List Char) : Bool → List Char → Bool
  | _, [] => false
  | prevW, c :: rest => wbAt kw prevW (c :: rest) || wbAux kw (isWordChar c) rest

def wbSearch (kw : List Char) (t : List Char) : Bool := wbAux kw false t

/-! ### Currency detector
`re.search(r"\b\d{1,3}(?:[\s., ]\d{3})*(?:[.,]\d+)?\s?(?:₸|тенге|kzt|\$|usd|eur|€|руб|₽)\b", t)`
as an executable backtracking matcher: each piece maps a remainder to the
list of remainders it can leave, and `re.search` succeeds iff some choice
of remainders reaches a currency token followed by a `\b` boundary. -/

def isDigit (c : Char) : Bool := 48 ≤ c.toNat && c.toNat ≤ 57

/-- The character class `[\s., ]` (U+00A0 is already in `\s`). -/
def isSepChar (c : Char) : Bool := isPySpace c || c == '.' || c == ','

/-- Remainders after `\d{1,3}` (one, two or three leading digits). -/
def leadDigits : List Char → List (List Char)
  | a :: r1 =>
    if isDigit a then
      r1 :: (match r1 with
             | b :: r2 =>
               if isDigit b then
                 r2 :: (match r2 with
                        | c :: r3 => if isDigit c then [r3] else []
                        | [] => [])
               else []
             | [] => [])
    else []
  | [] => []

/-- Remainders after `(?:[\s., ]\d{3})*`. -/
def starGroup : List Char → List (List Char)
  | s :: d1 :: d2 :: d3 :: rest =>
    (s :: d1 :: d2 :: d3 :: rest) ::
      (if isSepChar s && isDigit d1 && isDigit d2 && isDigit d3 then starGroup rest
       else [])
  | t => [t]

/-- Remainders after `\d+` (at least one digit). -/
def digitsPlus : List Char → List (List Char)
  | c :: rest => if isDigit c then rest :: digitsPlus rest else []
  | [] => []

/-- Remainders after `(?:[.,]\d+)?`. -/
def decOpt (t : List Char) : List (List Char) :=
  t :: (match t with
        | c :: rest => if c == '.' || c == ',' then digitsPlus rest else []
        | [] => [])

/-- Remainders after `\s?`. -/
def spaceOpt (t : List Char) : List (List Char) :=
  t :: (match t with
        | c :: rest => if isPySpace c then [rest] else []
        | [] => [])

def currencyTokens : List (List Char) :=
  ["₸".data, "тенге".data, "kzt".data, "$".data, "usd".data, "eur".data,
   "€".data, "руб".data, "₽".data]

/-- The trailing `\b` after a currency token. -/
def tokenBoundary (tok rest : List Char) : Bool :=
  match tok.getLast? with
  | some l => (match rest with
               | [] => isWordChar l
               | c :: _ => isWordChar l != isWordChar c)
  | none => false

def currencyAt (t : List Char) : Bool :=
  (leadDigits t).any fun t1 =>
    (starGroup t1).any fun t2 =>
      (decOpt t2).any fun t3 =>
        (spaceOpt t3).any fun t4 =>
          currencyTokens.any fun tok =>
            tok.isPrefixOf t4 && tokenBoundary tok (t4.drop tok.length)

/-- Scan for a match of the currency pattern; the leading `\b` before a
digit requires the previous character (virtual start counts as non-word)
to be a non-word character. -/
def currencyAux : Bool → List Char → Bool
  | _, [] => false
  | prevW, c :: rest => (!prevW && currencyAt (c :: rest)) || currencyAux (isWordChar c) rest

def currencySearch (t : List Char) : Bool := currencyAux false t

/-! ### The detector word lists (main.py lines 120-124, 162, 170-171) -/

/-- The built-in fallback keyword list of `load_keywords`. -/
def fallbackKeywords : List String :=
  ["transfer","urgent","money","prize","win","grant","link","click",
   "переведи","срочно","подарок","грант","ссылка","пароль","банк",
   "лотерея","выиграл","данные"]

/-- The fixed link/shortener marker list of detector 2. -/
def LINK_MARKERS : List String :=
  ["http://","https://","t.me/","bit.ly","tinyurl","wa.me/","vk.cc",
   "goo.gl","lnkd.in","link","ссылка","перейди"]

/-- The `actions` list of detector 4. -/
def actions : List String :=
  ["click","кликни","перейди","введи","подтверди","переведи","оплати",
   "follow","open","confirm"]

/-- The `rewards` list of detector 4. -/
def rewards : List String :=
  ["выиграл","приз","подарок","лотерея","grant","грант","win","prize",
   "reward","деньги","доход","инвестиция"]

/-- Detector 1 hit list: `[kw for kw in KEYWORDS if kw and re.search(...)]`. -/
def keywordHits (keywords : List String) (t : List Char) : List String :=
  keywords.filter fun kw => !kw.isEmpty && wbSearch kw.data t

/-- Detector 1 reason: `"found keywords: " + ", ".join(hits[:5])`. -/
def keywordReason (keywords : List String) (t : List Char) : String :=
  "found keywords: " ++ String.intercalate ", " ((keywordHits keywords t).take 5)

/-- `looks_suspicious` of main.py lines 152-175, parameterised by the
process keyword list `KEYWORDS`. -/
def looks_suspicious (keywords : List String) (text : String) : Bool × List String :=
  let t := pyNormalizeList text.data
  let reasons : List String :=
    (if !(keywordHits keywords t).isEmpty then [keywordReason keywords t] else [])
    ++ (if LINK_MARKERS.any (fun m => isInfixB m.data t) then ["contains link/shortener"]
        else [])
    ++ (if currencySearch t then ["mentions money amount + currency"] else [])
    ++ (if (actions.any fun a => wbSearch a.data t) && (rewards.any fun r => wbSearch r.data t)
        then ["action + reward pattern"] else [])
  (decide (0 < reasons.length), reasons)

/-! ### Keyword loading (main.py lines 112-126)

`load_keywords` reads `scam_keywords.json` and returns
`sorted(set(str(k).lower() for k in kws if isinstance(k, str)))`; on any
exception it returns the built-in fallback list.  The file is outside the
embedded core, so the loaded branch is parameterised by the list of string
entries of the document's `keywords` field (the `isinstance` filter and
`str` conversion leave exactly those); `none` stands for the exception
branch.  Python `sorted` over strings is sorting by code points, embedded
as `lexLt` below, and `sorted(set(...))` is sort-then-deduplicate. -/

/-- Python `str.lower`, string-wise. -/
def strLower (s : String) : String := String.mk (s.data.map pyLower)

/-- Code-point lexicographic strict order on strings (Python `<`). -/
def lexLt : List Char → List Char → Bool
  | [], [] => false
  | [], _ :: _ => true
  | _ :: _, [] => false
  | a :: as, b :: bs => decide (a.toNat < b.toNat) || (a == b && lexLt as bs)

/-- Python string `<=`. -/
def strLe (x y : String) : Prop := lexLt x.data y.data = true ∨ x = y

instance strLe.decRel : DecidableRel strLe := fun x y =>
  inferInstanceAs (Decidable (lexLt x.data y.data = true ∨ x = y))

def load_keywords (fileKeywords : Option (List String)) : List String :=
  match fileKeywords with
  | some kws => ((kws.map strLower).insertionSort strLe).dedup
  | none => fallbackKeywords

/-! ### Explanation arbiter: `ai_explain_safety` (main.py lines 178-226)

The module globals `_ai_cooldown_until` and `_ai_backoff_sec` become an
explicit `AiState`; `time.time()` becomes the argument `now : ℚ`; the
optional Gemini handle becomes the flag `hasModel`; and what the remote
call would do, were it issued, is the oracle argument `outcome` (the
response text of a successful call, stripped-and-truncated by the caller
in the source, or the text of the raised exception).  The result is the
returned tip, the new state, and `some payload` when a remote call was
attempted with that payload (`none` when no call was attempted).  The
source annotates the return type `Optional[str]` but every path returns a
string, which the embedding makes a total function. -/

def aiBackoffMax : ℚ := 3600

/-- Python `min` on two numbers, kept executable. -/
def ratMin (a b : ℚ) : ℚ := if a ≤ b then a else b

/-- Startup values of the globals: no cooldown, 60 s base backoff. -/
structure AiState where
  cooldown_until : ℚ
  backoff_sec : ℚ
deriving DecidableEq, Repr

def initialAiState : AiState := ⟨0, 60⟩

inductive GenOutcome where
  | ok (resp : String)
  | err (msg : String)
deriving DecidableEq, Repr

/-- The quota test of the except branch: `"429" in msg or "quota" in msg.lower()`. -/
def quotaError (msg : String) : Bool :=
  isInfixB "429".data msg.data || isInfixB "quota".data (msg.data.map pyLower)

/-- Case-insensitive literal prefix test (for `flags=re.I`). -/
def ciPrefix : List Char → List Char → Bool
  | [], _ => true
  | _ :: _, [] => false
  | p :: ps, c :: cs => (pyLower c == p) && ciPrefix ps cs

def digitsVal (ds : List Char) : Nat := ds.foldl (fun n c => n * 10 + (c.toNat - 48)) 0

/-- The first maximal digit run of the list, if any (what greedy `[^\d]*(\d+)`
captures after the delay marker). -/
def firstDigitRun : List Char → Option (List Char)
  | [] => none
  | c :: rest => if isDigit c then some (c :: rest.takeWhile isDigit) else firstDigitRun rest

/-- Remainder after `retry[_ ]delay` (case-insensitive) at this position. -/
def retryDelayAt (t : List Char) : Option (List Char) :=
  if ciPrefix "retry".data t then
    match t.drop 5 with
    | c :: rest =>
      if (c == '_' || c == ' ') && ciPrefix "delay".data rest then some (rest.drop 5)
      else none
    | [] => none
  else none

def extractRetryAux : List Char → Option Nat
  | [] => none
  | c :: rest =>
    match retryDelayAt (c :: rest) with
    | some rem =>
      (match firstDigitRun rem with
       | some ds => some (digitsVal ds)
       | none => extractRetryAux rest)
    | none => extractRetryAux rest

/-- `re.search(r"retry[_ ]delay[^\d]*(\d+)", msg, flags=re.I)`, returning the
captured number. -/
def extractRetry (msg : String) : Option Nat := extractRetryAux msg.data

def _local_fallback_tip (lang : String) : String :=
  if lang = "ru" then
    "Проверьте отправителя по официальному номеру, не переходите по ссылкам и не вводите данные. Если просят деньги/код — это почти наверняка мошенники."
  else
    "Verify the sender via official phone, don’t open links or enter credentials. If they ask for money/codes — it’s almost certainly a scam."

/-- Python `str.strip`. -/
def pyStrip (s : String) : String :=
  String.mk (((s.data.dropWhile isPySpace).reverse.dropWhile isPySpace).reverse)

/-- The `retry` value of the quota branch (main.py line 220): the
provider-suggested delay extracted from the error text when there is one,
the current backoff otherwise. -/
def retryDelayOrBackoff (msg : String) (st : AiState) : ℚ :=
  match extractRetry msg with
  | some n => (n : ℚ)
  | none => st.backoff_sec

/-- The attempted-call body of `ai_explain_safety` (the `try`/`except` of
main.py lines 212-226, with the oracle `outcome` standing for what the
remote call does). -/
def ai_attempt (st : AiState) (now : ℚ) (outcome : GenOutcome)
    (text lang : String) : String × AiState × Option String :=
  let payload := String.mk (text.data.take 1500)
  match outcome with
  | .ok resp =>
    let out := pyStrip resp
    (if !out.data.isEmpty then String.mk (out.data.take 500) else _local_fallback_tip lang,
     st, some payload)
  | .err msg =>
    if quotaError msg then
      let retry : ℚ := retryDelayOrBackoff msg st
      (_local_fallback_tip lang,
       ⟨now + ratMin retry aiBackoffMax, ratMin (st.backoff_sec * 2) aiBackoffMax⟩,
       some payload)
    else
      (_local_fallback_tip lang, st, some payload)

def ai_explain_safety (hasModel : Bool) (st : AiState) (now : ℚ)
    (outcome : GenOutcome) (text lang : String) : String × AiState × Option String :=
  if !hasModel || now < st.cooldown_until then
    (_local_fallback_tip lang, st, none)
  else
    ai_attempt st now outcome text lang

/-! ## Concrete inputs named by the claims -/

def c1input : String := "Urgent! Transfer money now, you won a prize!"

def apos : Char := Char.ofNat 39

/-- The benign example input (with its ASCII apostrophe). -/
def c7input : String := "Let" ++ String.mk [apos] ++ "s meet for coffee tomorrow"

def c10pos : String := "Please send 1,500.00 USD today"

def c10neg : String := "room 1500"

def c2input : String := "http://evil.com"

/-! ## Helper lemmas -/

theorem decide_pos_length (l : List String) : decide (0 < l.length) = !l.isEmpty := by
  cases l <;> simp

theorem ite_singleton_sublist (c : Prop) [Decidable c] (x : String) :
    List.Sublist (if c then [x] else []) [x] := by
  split
  · exact List.Sublist.refl _
  · exact List.nil_sublist _

theorem four_ifs_sublist (c1 c2 c3 c4 : Prop)
    [Decidable c1] [Decidable c2] [Decidable c3] [Decidable c4]
    (x1 x2 x3 x4 : String) :
    List.Sublist ((if c1 then [x1] else []) ++ (if c2 then [x2] else [])
      ++ (if c3 then [x3] else []) ++ (if c4 then [x4] else [])) [x1, x2, x3, x4] := by
  have h := List.Sublist.append (ite_singleton_sublist c1 x1)
    (List.Sublist.append (ite_singleton_sublist c2 x2)
      (List.Sublist.append (ite_singleton_sublist c3 x3) (ite_singleton_sublist c4 x4)))
  simpa using h

theorem keywordReason_ne_link (kws : List String) (t : List Char) :
    keywordReason kws t ≠ "contains link/shortener" := by
  intro h
  have h2 := congrArg (fun s : String => s.data.head?) h
  simp only [keywordReason, String.data_append] at h2
  rw [List.cons_append, List.head?_cons, List.head?_cons] at h2
  exact absurd (Option.some.inj h2) (by decide)

/-! ## Claim theorems -/

/-- C1: the spec expects `evaluate("Urgent! Transfer money now, you won a
prize!")` with the fallback keyword list and the built-in action and reward
lists to be suspicious with the action+reward reason; the code returns
not-suspicious with no reasons at all, because `_normalize` folds the Latin
letters a,e,o,p,c,x,y,k,m,h,b,t of the message into Cyrillic while the
keyword, action and reward lists stay Latin, so none of them can match.
This theorem records what the code computes at the failing input. -/
theorem C1_evaluate_at_failing_input :
    looks_suspicious fallbackKeywords c1input = (false, []) := rfl

/-- C2 counterexample: the input "http://evil.com" contains the marker
"http://" of the fixed link-marker list, yet the result of evaluate does
not include the reason "contains link/shortener" (normalization destroys
the marker before the substring test). -/
theorem C2_counterexample :
    LINK_MARKERS.contains "http://" = true
    ∧ isInfixB "http://".data c2input.data = true
    ∧ (looks_suspicious fallbackKeywords c2input).2.contains "contains link/shortener"
        = false := by
  refine ⟨rfl, rfl, rfl⟩

/-- C2 amended: for every keyword list and every input text whose
NORMALIZED text contains a marker of the fixed link-marker list, evaluate
includes the single reason "contains link/shortener" (exactly once) in its
result. -/
theorem C2_link_reason_on_normalized (kws : List String) (text : String)
    (h : (LINK_MARKERS.any fun m => isInfixB m.data (pyNormalizeList text.data)) = true) :
    (looks_suspicious kws text).2.count "contains link/shortener" = 1 := by
  show ((if !(keywordHits kws (pyNormalizeList text.data)).isEmpty
           then [keywordReason kws (pyNormalizeList text.data)] else [])
    ++ (if LINK_MARKERS.any (fun m => isInfixB m.data (pyNormalizeList text.data))
           then ["contains link/shortener"] else [])
    ++ (if currencySearch (pyNormalizeList text.data)
           then ["mentions money amount + currency"] else [])
    ++ (if (actions.any fun a => wbSearch a.data (pyNormalizeList text.data))
             && (rewards.any fun r => wbSearch r.data (pyNormalizeList text.data))
           then ["action + reward pattern"] else [])).count "contains link/shortener" = 1
  rw [h]
  simp only [if_true, List.count_append]
  have hkw : (if !(keywordHits kws (pyNormalizeList text.data)).isEmpty
      then [keywordReason kws (pyNormalizeList text.data)] else []).count
        "contains link/shortener" = 0 := by
    split
    · simp [List.count_cons, List.count_nil, keywordReason_ne_link]
    · rfl
  rw [hkw]
  split <;> split <;> decide

/-- C7: for every keyword list and input, the verdict is true exactly when
the reason list is non-empty, the reasons are a sublist of the four reason
strings in the fixed detector order keyword, link, currency, action+reward,
and the benign example evaluates to not-suspicious with no reasons. -/
theorem C7_verdict_reasons_order_example :
    (∀ (kws : List String) (s : String),
       (looks_suspicious kws s).1 = !(looks_suspicious kws s).2.isEmpty
       ∧ List.Sublist (looks_suspicious kws s).2
           [keywordReason kws (pyNormalizeList s.data), "contains link/shortener",
            "mentions money amount + currency", "action + reward pattern"])
    ∧ looks_suspicious fallbackKeywords c7input = (false, []) := by
  refine ⟨fun kws s => ⟨decide_pos_length _, ?_⟩, rfl⟩
  exact four_ifs_sublist _ _ _ _ _ _ _ _

/-- C10: the currency detector matches "Please send 1,500.00 USD today"
and the money-amount reason is emitted; it does not match "room 1500",
which lacks a currency token, and no money-amount reason is emitted. -/
theorem C10_currency_detector :
    currencySearch (pyNormalizeList c10pos.data) = true
    ∧ (looks_suspicious fallbackKeywords c10pos).2.contains
        "mentions money amount + currency" = true
    ∧ currencySearch (pyNormalizeList c10neg.data) = false
    ∧ (looks_suspicious fallbackKeywords c10neg).2.contains
        "mentions money amount + currency" = false := by
  refine ⟨rfl, rfl, rfl, rfl⟩

/-! ## Explanation-arbiter lemmas and claims -/

theorem ratMin_eq_min (a b : ℚ) : ratMin a b = min a b := by
  simp [ratMin, min_def]

set_option maxRecDepth 8192 in
theorem local_fallback_tip_length (lang : String) : 0 < (_local_fallback_tip lang).length := by
  unfold _local_fallback_tip
  split <;> decide

/-- Whether the oracle outcome is classified as a quota error by the source
(`"429" in msg or "quota" in msg.lower()`); a success never is. -/
def quotaOutcome : GenOutcome → Bool
  | .ok _ => false
  | .err m => quotaError m

/-- When the gate is open (model present, cooldown elapsed) the call runs
the attempted-call body. -/
theorem explain_attempted (st : AiState) (now : ℚ) (outcome : GenOutcome)
    (text lang : String) (hc : ¬ now < st.cooldown_until) :
    ai_explain_safety true st now outcome text lang
      = ai_attempt st now outcome text lang := by
  unfold ai_explain_safety
  rw [if_neg]
  simp [hc]

/-- The state written by the quota branch of `ai_explain_safety`: the
cooldown advances by the extracted retry delay when the error text carries
one and by the current backoff otherwise, capped at the maximum, and the
backoff doubles capped at the maximum. -/
theorem quota_step (st : AiState) (now : ℚ) (msg text lang : String)
    (hc : ¬ now < st.cooldown_until) (hq : quotaError msg = true) :
    (ai_explain_safety true st now (.err msg) text lang).2.1
      = ⟨now + ratMin (retryDelayOrBackoff msg st) aiBackoffMax,
         ratMin (st.backoff_sec * 2) aiBackoffMax⟩ := by
  rw [explain_attempted st now (.err msg) text lang hc]
  unfold ai_attempt
  simp [hq]

/-- C4: `ai_explain_safety` is total and every return path yields a
non-empty string (so the callers' `if tip:` guard always passes); the
remote-failure branches are the `err` outcomes, and they too return the
non-empty local fallback tip instead of propagating the error. -/
theorem C4_explain_always_nonempty (hasModel : Bool) (st : AiState) (now : ℚ)
    (outcome : GenOutcome) (text lang : String) :
    0 < (ai_explain_safety hasModel st now outcome text lang).1.length := by
  unfold ai_explain_safety
  split
  · exact local_fallback_tip_length lang
  · cases outcome with
    | ok resp =>
      show 0 < (if !(pyStrip resp).data.isEmpty then String.mk ((pyStrip resp).data.take 500)
          else _local_fallback_tip lang).length
      split
      · rename_i h
        show 0 < ((pyStrip resp).data.take 500).length
        rw [List.length_take]
        cases hd : (pyStrip resp).data with
        | nil => rw [hd] at h; simp at h
        | cons a l => simp [hd]
      · exact local_fallback_tip_length lang
    | err msg =>
      have h1 : (ai_attempt st now (.err msg) text lang).1 = _local_fallback_tip lang := by
        unfold ai_attempt
        cases hq : quotaError msg <;> simp [hq]
      rw [h1]
      exact local_fallback_tip_length lang

/-- C5: when the generator is disabled or the cooldown window is open, the
call returns the deterministic local fallback tip for the language, leaves
the state unchanged, and attempts no remote call (the payload component is
`none`). -/
theorem C5_no_attempt_when_disabled_or_cooling (hasModel : Bool) (st : AiState)
    (now : ℚ) (outcome : GenOutcome) (text lang : String)
    (h : hasModel = false ∨ now < st.cooldown_until) :
    ai_explain_safety hasModel st now outcome text lang
      = (_local_fallback_tip lang, st, none) := by
  unfold ai_explain_safety
  rcases h with h | h
  · subst h; rfl
  · have hb : (!hasModel || decide (now < st.cooldown_until)) = true := by simp [h]
    simp [hb]

theorem C5_witness :
    ai_explain_safety false initialAiState 5 (.ok "hello") "text" "en"
      = (_local_fallback_tip "en", initialAiState, none) :=
  C5_no_attempt_when_disabled_or_cooling false initialAiState 5 (.ok "hello") "text" "en"
    (Or.inl rfl)

/-- C6: when a remote call is attempted (model present, cooldown elapsed)
and it either succeeds or fails with an error whose text carries neither
"429" nor "quota", the AI state (both `cooldown_until` and `backoff_sec`)
is unchanged. -/
theorem C6_state_unchanged_on_success_or_nonquota (st : AiState) (now : ℚ)
    (outcome : GenOutcome) (text lang : String)
    (hc : ¬ now < st.cooldown_until) (hnq : quotaOutcome outcome = false) :
    (ai_explain_safety true st now outcome text lang).2.1 = st := by
  rw [explain_attempted st now outcome text lang hc]
  cases outcome with
  | ok resp => rfl
  | err msg =>
    have hq : quotaError msg = false := hnq
    unfold ai_attempt
    simp [hq]

theorem C6_witness :
    (ai_explain_safety true initialAiState 5 (.ok "hello") "text" "en").2.1
      = initialAiState :=
  C6_state_unchanged_on_success_or_nonquota initialAiState 5 (.ok "hello") "text" "en"
    (by norm_num [initialAiState]) rfl

/-- C3: every quota failure at an attempted call sets
`cooldown_until = now + min(extracted_retry_delay_or_current_backoff, 3600)`
(the extracted provider-suggested delay when the error text carries one,
the current backoff otherwise) and doubles the backoff capped at 3600;
consequently two consecutive quota failures with no provider-suggested
delay open a second cooldown window at least double the first, capped at
the maximum. -/
theorem C3_quota_cooldown_and_backoff_growth (st : AiState) (now now' : ℚ)
    (msg msg' text lang text' lang' : String)
    (hc : ¬ now < st.cooldown_until)
    (hq : quotaError msg = true) (hq' : quotaError msg' = true) :
    ((ai_explain_safety true st now (.err msg) text lang).2.1.cooldown_until
        = now + min (retryDelayOrBackoff msg st) aiBackoffMax
      ∧ (ai_explain_safety true st now (.err msg) text lang).2.1.backoff_sec
        = min (st.backoff_sec * 2) aiBackoffMax)
    ∧ (extractRetry msg = none → extractRetry msg' = none →
        ¬ now' < (ai_explain_safety true st now (.err msg) text lang).2.1.cooldown_until →
        min (2 * ((ai_explain_safety true st now (.err msg) text lang).2.1.cooldown_until - now))
            aiBackoffMax
          ≤ (ai_explain_safety true (ai_explain_safety true st now (.err msg) text lang).2.1
               now' (.err msg') text' lang').2.1.cooldown_until - now') := by
  have e1 := quota_step st now msg text lang hc hq
  rw [e1]
  refine ⟨⟨by simp [ratMin_eq_min], by simp [ratMin_eq_min]⟩, ?_⟩
  intro hr hr' hc'
  have hrb : retryDelayOrBackoff msg st = st.backoff_sec := by
    simp [retryDelayOrBackoff, hr]
  rw [hrb] at hc' ⊢
  have e2 := quota_step _ now' msg' text' lang' hc' hq'
  rw [e2]
  have hrb' : retryDelayOrBackoff msg'
      (⟨now + ratMin st.backoff_sec aiBackoffMax,
        ratMin (st.backoff_sec * 2) aiBackoffMax⟩ : AiState)
      = ratMin (st.backoff_sec * 2) aiBackoffMax := by
    simp [retryDelayOrBackoff, hr']
  rw [hrb']
  simp only [ratMin_eq_min, add_sub_cancel_left, aiBackoffMax]
  rcases le_total st.backoff_sec 3600 with hb | hb <;>
    simp [min_def] <;> split_ifs <;> linarith

theorem C3_witness :
    (((ai_explain_safety true initialAiState 100 (.err "429") "" "").2.1.cooldown_until
        = 100 + min (retryDelayOrBackoff "429" initialAiState) aiBackoffMax
      ∧ (ai_explain_safety true initialAiState 100 (.err "429") "" "").2.1.backoff_sec
        = min (initialAiState.backoff_sec * 2) aiBackoffMax)
    ∧ (extractRetry "429" = none → extractRetry "429" = none →
        ¬ (200:ℚ) < (ai_explain_safety true initialAiState 100 (.err "429") "" "").2.1.cooldown_until →
        min (2 * ((ai_explain_safety true initialAiState 100 (.err "429") "" "").2.1.cooldown_until
              - 100)) aiBackoffMax
          ≤ (ai_explain_safety true
               (ai_explain_safety true initialAiState 100 (.err "429") "" "").2.1
               200 (.err "429") "" "").2.1.cooldown_until - 200)) :=
  C3_quota_cooldown_and_backoff_growth initialAiState 100 200 "429" "429" "" "" "" ""
    (by norm_num [initialAiState]) rfl rfl

/-! ## Character-level facts about the normalizer maps -/

theorem string_data_inj {s t : String} (h : s.data = t.data) : s = t := by
  cases s; cases t; exact congrArg String.mk h

theorem char_toNat_inj {a b : Char} (h : a.toNat = b.toNat) : a = b :=
  Char.ext (UInt32.toNat.inj h)

theorem toNat_ofNat_valid {n : Nat} (h : n.isValidChar) : (Char.ofNat n).toNat = n := by
  simp [Char.ofNat, Char.toNat, Char.ofNatAux, h]
  rfl

theorem lowerNat_idem (n : Nat) : lowerNat (lowerNat n) = lowerNat n := by
  unfold lowerNat
  split_ifs <;> omega

theorem lowerNat_valid {n : Nat} (h : n.isValidChar) : (lowerNat n).isValidChar := by
  unfold Nat.isValidChar at *
  unfold lowerNat
  split_ifs <;> omega

theorem lowerNat_not_upper (n : Nat) :
    ¬(65 ≤ lowerNat n ∧ lowerNat n ≤ 90) ∧ ¬(1024 ≤ lowerNat n ∧ lowerNat n ≤ 1071) := by
  unfold lowerNat
  split_ifs <;> omega

theorem l2cNat_eq_self {n : Nat} (h1 : n ≠ 97) (h2 : n ≠ 101) (h3 : n ≠ 111)
    (h4 : n ≠ 112) (h5 : n ≠ 99) (h6 : n ≠ 120) (h7 : n ≠ 121) (h8 : n ≠ 107)
    (h9 : n ≠ 109) (h10 : n ≠ 104) (h11 : n ≠ 98) (h12 : n ≠ 116) : l2cNat n = n := by
  unfold l2cNat
  split_ifs <;> omega

/-- A code point is one of the twelve translated Latin letters, or the
translation table fixes it. -/
theorem l2cNat_cases (n : Nat) :
    (n = 97 ∨ n = 101 ∨ n = 111 ∨ n = 112 ∨ n = 99 ∨ n = 120 ∨ n = 121 ∨ n = 107
      ∨ n = 109 ∨ n = 104 ∨ n = 98 ∨ n = 116) ∨ l2cNat n = n := by
  by_cases h : n = 97 ∨ n = 101 ∨ n = 111 ∨ n = 112 ∨ n = 99 ∨ n = 120 ∨ n = 121
      ∨ n = 107 ∨ n = 109 ∨ n = 104 ∨ n = 98 ∨ n = 116
  · exact Or.inl h
  · push_neg at h
    obtain ⟨h1,h2,h3,h4,h5,h6,h7,h8,h9,h10,h11,h12⟩ := h
    exact Or.inr (l2cNat_eq_self h1 h2 h3 h4 h5 h6 h7 h8 h9 h10 h11 h12)

theorem l2cNat_idem (n : Nat) : l2cNat (l2cNat n) = l2cNat n := by
  rcases l2cNat_cases n with h | h
  · rcases h with rfl|rfl|rfl|rfl|rfl|rfl|rfl|rfl|rfl|rfl|rfl|rfl <;> rfl
  · rw [h, h]

theorem l2cNat_valid {n : Nat} (h : n.isValidChar) : (l2cNat n).isValidChar := by
  rcases l2cNat_cases n with hc | hc
  · rcases hc with rfl|rfl|rfl|rfl|rfl|rfl|rfl|rfl|rfl|rfl|rfl|rfl <;> exact Or.inl (by decide)
  · rw [hc]; exact h

theorem lowerNat_fix_l2cNat {m : Nat}
    (hu : ¬(65 ≤ m ∧ m ≤ 90) ∧ ¬(1024 ≤ m ∧ m ≤ 1071)) :
    lowerNat (l2cNat m) = l2cNat m := by
  rcases l2cNat_cases m with h | h
  · rcases h with rfl|rfl|rfl|rfl|rfl|rfl|rfl|rfl|rfl|rfl|rfl|rfl <;> rfl
  · rw [h]
    unfold lowerNat
    split_ifs <;> omega

theorem lowerNat_l2cNat_lowerNat (n : Nat) :
    lowerNat (l2cNat (lowerNat n)) = l2cNat (lowerNat n) :=
  lowerNat_fix_l2cNat (lowerNat_not_upper n)

theorem wordNat_l2cNat (n : Nat) : wordNat (l2cNat n) = wordNat n := by
  rcases l2cNat_cases n with h | h
  · rcases h with rfl|rfl|rfl|rfl|rfl|rfl|rfl|rfl|rfl|rfl|rfl|rfl <;> rfl
  · rw [h]

theorem pyLower_toNat (c : Char) : (pyLower c).toNat = lowerNat c.toNat :=
  toNat_ofNat_valid (lowerNat_valid c.valid)

theorem l2c_toNat (c : Char) : (l2c c).toNat = l2cNat c.toNat :=
  toNat_ofNat_valid (l2cNat_valid c.valid)

theorem pyLower_idem (c : Char) : pyLower (pyLower c) = pyLower c :=
  char_toNat_inj (by rw [pyLower_toNat, pyLower_toNat, lowerNat_idem])

theorem l2c_idem (c : Char) : l2c (l2c c) = l2c c :=
  char_toNat_inj (by rw [l2c_toNat, l2c_toNat, l2cNat_idem])

theorem pyLower_l2c_pyLower (c : Char) :
    pyLower (l2c (pyLower c)) = l2c (pyLower c) :=
  char_toNat_inj (by
    rw [pyLower_toNat, l2c_toNat, pyLower_toNat, lowerNat_l2cNat_lowerNat])

theorem isWordChar_l2c (c : Char) : isWordChar (l2c c) = isWordChar c := by
  unfold isWordChar
  rw [l2c_toNat, wordNat_l2cNat]

theorem strLower_idem (s : String) : strLower (strLower s) = strLower s := by
  unfold strLower
  apply string_data_inj
  simp [Function.comp, pyLower_idem]

/-! ## The code-point order used by `sorted` -/

theorem lexLt_irrefl (as : List Char) : lexLt as as = false := by
  induction as with
  | nil => rfl
  | cons a l ih => simp [lexLt, ih]

theorem lexLt_trans {as bs cs : List Char} (h1 : lexLt as bs = true)
    (h2 : lexLt bs cs = true) : lexLt as cs = true := by
  induction as generalizing bs cs with
  | nil =>
    cases bs with
    | nil => simp [lexLt] at h1
    | cons b bs' =>
      cases cs with
      | nil => simp [lexLt] at h2
      | cons c cs' => rfl
  | cons a as' ih =>
    cases bs with
    | nil => simp [lexLt] at h1
    | cons b bs' =>
      cases cs with
      | nil => simp [lexLt] at h2
      | cons c cs' =>
        simp only [lexLt, Bool.or_eq_true, Bool.and_eq_true, decide_eq_true_eq,
          beq_iff_eq] at h1 h2 ⊢
        rcases h1 with h1 | ⟨rfl, h1⟩
        · rcases h2 with h2 | ⟨rfl, h2⟩
          · exact Or.inl (Nat.lt_trans h1 h2)
          · exact Or.inl h1
        · rcases h2 with h2 | ⟨rfl, h2⟩
          · exact Or.inl h2
          · exact Or.inr ⟨rfl, ih h1 h2⟩

theorem lexLt_trichotomy (as bs : List Char) :
    lexLt as bs = true ∨ as = bs ∨ lexLt bs as = true := by
  induction as generalizing bs with
  | nil =>
    cases bs with
    | nil => exact Or.inr (Or.inl rfl)
    | cons b bs' => exact Or.inl rfl
  | cons a as' ih =>
    cases bs with
    | nil => exact Or.inr (Or.inr rfl)
    | cons b bs' =>
      rcases Nat.lt_trichotomy a.toNat b.toNat with h | h | h
      · exact Or.inl (by simp [lexLt, h])
      · have hab : a = b := char_toNat_inj h
        subst hab
        rcases ih bs' with h' | h' | h'
        · exact Or.inl (by simp [lexLt, h'])
        · exact Or.inr (Or.inl (by rw [h']))
        · exact Or.inr (Or.inr (by simp [lexLt, h']))
      · exact Or.inr (Or.inr (by simp [lexLt, h]))

instance : IsTrans String strLe where
  trans := by
    intro x y z hxy hyz
    rcases hxy with hxy | rfl
    · rcases hyz with hyz | rfl
      · exact Or.inl (lexLt_trans hxy hyz)
      · exact Or.inl hxy
    · exact hyz

instance : IsTotal String strLe where
  total := by
    intro x y
    rcases lexLt_trichotomy x.data y.data with h | h | h
    · exact Or.inl (Or.inl h)
    · exact Or.inl (Or.inr (string_data_inj h))
    · exact Or.inr (Or.inl h)

/-! ## C8: invariants of the loaded keyword list -/

/-- C8 counterexample: the built-in fallback list is not sorted (for
instance "urgent" precedes "money"), so the sortedness invariant fails on
the fallback branch of `load_keywords`. -/
theorem C8_counterexample : ¬ List.Sorted strLe fallbackKeywords := by
  decide

/-- C8 amended: on the loaded-from-file branch the produced list has all
entries lowercase, no duplicates and sorted iteration order; on the
built-in fallback branch the entries are lowercase and duplicate-free, but
the iteration order is the literal list order, which is not sorted (see
the counterexample). -/
theorem C8_keyword_invariants (kws : List String) :
    ((load_keywords (some kws)).all fun s => strLower s == s) = true
    ∧ List.Sorted strLe (load_keywords (some kws))
    ∧ (load_keywords (some kws)).Nodup
    ∧ (fallbackKeywords.all fun s => strLower s == s) = true
    ∧ fallbackKeywords.Nodup := by
  refine ⟨?_, ?_, ?_, by decide, by decide⟩
  · rw [List.all_eq_true]
    intro x hx
    rw [beq_iff_eq]
    have hx' : x ∈ (kws.map strLower).insertionSort strLe := by
      exact List.Sublist.mem hx (List.dedup_sublist _)
    have hx'' : x ∈ kws.map strLower :=
      (List.perm_insertionSort strLe (kws.map strLower)).mem_iff.mp hx'
    rcases List.mem_map.mp hx'' with ⟨y, _, rfl⟩
    exact strLower_idem y
  · exact List.Pairwise.sublist (List.dedup_sublist _)
      (List.sorted_insertionSort strLe (kws.map strLower))
  · exact List.nodup_dedup _

/-! ## C9: idempotence of the normalizer

The normalized text is a join of word-character runs by single spaces,
every character of which is fixed by a second pass of lowering,
tokenisation and translation. -/

theorem wordRunsAux_runs {p : Char → Prop} :
    ∀ (cs acc : List Char),
      (∀ c ∈ acc, p c ∧ isWordChar c = true) →
      (∀ c ∈ cs, p c) →
      ∀ r ∈ wordRunsAux acc cs, r ≠ [] ∧ ∀ c ∈ r, p c ∧ isWordChar c = true := by
  intro cs
  induction cs with
  | nil =>
    intro acc hacc _ r hr
    simp only [wordRunsAux] at hr
    by_cases he : acc.isEmpty = true
    · rw [if_pos he] at hr
      simp at hr
    · rw [if_neg he] at hr
      rcases List.mem_singleton.mp hr with rfl
      refine ⟨?_, ?_⟩
      · intro hrev
        exact he (List.isEmpty_iff.mpr (List.reverse_eq_nil_iff.mp hrev))
      · intro x hx
        exact hacc x (List.mem_reverse.mp hx)
  | cons c cs ih =>
    intro acc hacc hcs r hr
    simp only [wordRunsAux] at hr
    by_cases hw : isWordChar c = true
    · rw [if_pos hw] at hr
      refine ih (c :: acc) ?_ (fun x hx => hcs x (by simp [hx])) r hr
      intro x hx
      rcases List.mem_cons.mp hx with rfl | hx
      · exact ⟨hcs x (by simp), hw⟩
      · exact hacc x hx
    · rw [if_neg hw] at hr
      by_cases he : acc.isEmpty = true
      · rw [if_pos he] at hr
        exact ih [] (by simp) (fun x hx => hcs x (by simp [hx])) r hr
      · rw [if_neg he] at hr
        rcases List.mem_cons.mp hr with rfl | hr
        · refine ⟨?_, ?_⟩
          · intro hrev
            exact he (List.isEmpty_iff.mpr (List.reverse_eq_nil_iff.mp hrev))
          · intro x hx
            exact hacc x (List.mem_reverse.mp hx)
        · exact ih [] (by simp) (fun x hx => hcs x (by simp [hx])) r hr

theorem wordRunsAux_word_append :
    ∀ (r : List Char), (∀ c ∈ r, isWordChar c = true) →
      ∀ (acc rest : List Char),
        wordRunsAux acc (r ++ rest) = wordRunsAux (r.reverse ++ acc) rest := by
  intro r
  induction r with
  | nil => intro _ acc rest; simp
  | cons c r' ih =>
    intro hr acc rest
    have hw : isWordChar c = true := hr c (by simp)
    show wordRunsAux acc (c :: (r' ++ rest)) = _
    simp only [wordRunsAux]
    rw [if_pos hw, ih (fun x hx => hr x (by simp [hx])) (c :: acc) rest]
    congr 1
    simp

theorem wordRunsAux_space (acc t : List Char) (hne : acc ≠ []) :
    wordRunsAux acc (' ' :: t) = acc.reverse :: wordRunsAux [] t := by
  simp only [wordRunsAux]
  rw [if_neg (by decide : ¬ isWordChar ' ' = true)]
  rw [if_neg (fun h => hne (List.isEmpty_iff.mp h))]

theorem wordRunsAux_final (acc : List Char) (hne : acc ≠ []) :
    wordRunsAux acc [] = [acc.reverse] := by
  simp only [wordRunsAux]
  rw [if_neg (fun h => hne (List.isEmpty_iff.mp h))]

/-- Tokenising a join of non-empty all-word runs gives back the runs. -/
theorem wordRuns_sepJoin :
    ∀ rs : List (List Char),
      (∀ r ∈ rs, r ≠ [] ∧ ∀ c ∈ r, isWordChar c = true) →
      wordRuns (sepJoin rs) = rs := by
  intro rs
  induction rs with
  | nil => intro _; rfl
  | cons r rs ih =>
    intro h
    rcases h r (by simp) with ⟨hne, hword⟩
    cases rs with
    | nil =>
      show wordRunsAux [] r = [r]
      have h1 := wordRunsAux_word_append r hword [] []
      rw [List.append_nil] at h1
      rw [List.append_nil] at h1
      rw [h1, wordRunsAux_final _ (by simpa using hne)]
      simp
    | cons r2 rs' =>
      show wordRunsAux [] (sepJoin (r :: r2 :: rs')) = r :: r2 :: rs'
      have hj : sepJoin (r :: r2 :: rs') = r ++ ' ' :: sepJoin (r2 :: rs') := rfl
      rw [hj, wordRunsAux_word_append r hword [] (' ' :: sepJoin (r2 :: rs')),
        List.append_nil, wordRunsAux_space _ _ (by simpa using hne),
        List.reverse_reverse]
      rw [show wordRunsAux [] (sepJoin (r2 :: rs')) = r2 :: rs' from
        ih (fun x hx => h x (by simp [hx]))]

theorem mem_sepJoin {c : Char} :
    ∀ rs : List (List Char), c ∈ sepJoin rs → c = ' ' ∨ ∃ r ∈ rs, c ∈ r := by
  intro rs
  induction rs with
  | nil => intro h; simp [sepJoin] at h
  | cons r rs ih =>
    cases rs with
    | nil => intro h; exact Or.inr ⟨r, by simp, h⟩
    | cons r2 rs' =>
      intro h
      have h' : c ∈ r ++ ' ' :: sepJoin (r2 :: rs') := h
      rcases List.mem_append.mp h' with h1 | h1
      · exact Or.inr ⟨r, by simp, h1⟩
      · rcases List.mem_cons.mp h1 with rfl | h2
        · exact Or.inl rfl
        · rcases ih h2 with h3 | ⟨r', hr', hcr'⟩
          · exact Or.inl h3
          · exact Or.inr ⟨r', by simp [hr'], hcr'⟩

theorem map_sepJoin (f : Char → Char) (hf : f ' ' = ' ') :
    ∀ rs : List (List Char), (sepJoin rs).map f = sepJoin (rs.map (List.map f)) := by
  intro rs
  induction rs with
  | nil => rfl
  | cons r rs ih =>
    cases rs with
    | nil => rfl
    | cons r2 rs' =>
      show (r ++ ' ' :: sepJoin (r2 :: rs')).map f
          = List.map f r ++ ' ' :: sepJoin ((r2 :: rs').map (List.map f))
      rw [List.map_append, List.map_cons, hf, ih]

theorem normalize_idem (cs : List Char) :
    pyNormalizeList (pyNormalizeList cs) = pyNormalizeList cs := by
  have hruns : ∀ r ∈ wordRuns (cs.map pyLower), r ≠ [] ∧ ∀ c ∈ r,
      (∃ x, c = pyLower x) ∧ isWordChar c = true := by
    refine wordRunsAux_runs (cs.map pyLower) [] (by simp) ?_
    intro c hc
    rcases List.mem_map.mp hc with ⟨x, _, rfl⟩
    exact ⟨x, rfl⟩
  have hout : pyNormalizeList cs
      = sepJoin ((wordRuns (cs.map pyLower)).map (List.map l2c)) := by
    unfold pyNormalizeList
    exact map_sepJoin l2c rfl _
  have hfix : ∀ c ∈ pyNormalizeList cs, pyLower c = c := by
    intro c hc
    unfold pyNormalizeList at hc
    rcases List.mem_map.mp hc with ⟨c0, hc0, rfl⟩
    rcases mem_sepJoin _ hc0 with rfl | ⟨r, hr, hcr⟩
    · rfl
    · rcases (hruns r hr).2 c0 hcr with ⟨⟨x, rfl⟩, _⟩
      exact pyLower_l2c_pyLower x
  have hmapfix : (pyNormalizeList cs).map pyLower = pyNormalizeList cs := by
    conv_rhs => rw [show pyNormalizeList cs = (pyNormalizeList cs).map id from
      (List.map_id _).symm]
    exact List.map_congr_left hfix
  have hruns' : ∀ r' ∈ (wordRuns (cs.map pyLower)).map (List.map l2c),
      r' ≠ [] ∧ ∀ c ∈ r', isWordChar c = true := by
    intro r' hr'
    rcases List.mem_map.mp hr' with ⟨r, hr, rfl⟩
    rcases hruns r hr with ⟨hne, hch⟩
    refine ⟨by simpa using hne, ?_⟩
    intro c hc
    rcases List.mem_map.mp hc with ⟨c0, hc0, rfl⟩
    rw [isWordChar_l2c]
    exact (hch c0 hc0).2
  have hwr : wordRuns (pyNormalizeList cs)
      = (wordRuns (cs.map pyLower)).map (List.map l2c) := by
    rw [hout]
    exact wordRuns_sepJoin _ hruns'
  show (sepJoin (wordRuns ((pyNormalizeList cs).map pyLower))).map l2c = pyNormalizeList cs
  rw [hmapfix, hwr, ← map_sepJoin l2c rfl, List.map_map]
  have hcomp : (sepJoin (wordRuns (cs.map pyLower))).map (l2c ∘ l2c)
      = (sepJoin (wordRuns (cs.map pyLower))).map l2c :=
    List.map_congr_left (fun c _ => l2c_idem c)
  rw [hcomp]
  rfl

/-- C9: the normalizer is idempotent: for every string x,
normalize(normalize(x)) = normalize(x). -/
theorem C9_normalize_idempotent (s : String) :
    _normalize (_normalize s) = _normalize s := by
  apply string_data_inj
  exact normalize_idem s.data

/-- C2 witness input check: the normalized text of "ссылка" contains the
marker "ссылка". -/
theorem C2_witness :
    (LINK_MARKERS.any fun m => isInfixB m.data (pyNormalizeList "ссылка".data)) = true
    ∧ (looks_suspicious [] "ссылка").2.count "contains link/shortener" = 1 :=
  ⟨by decide, C2_link_reason_on_normalized [] "ссылка" (by decide)⟩

end FinSafeBot

